import Mathlib

/-!
Verification development for the password-manager core of the repository
(`src/password_manager/crypto_utils.py`, `src/password_manager/password_manager.py`,
`src/password_manager/generator.py`).

Modelling conventions:
* Python `bytes` values are `List Nat` together with the predicate `isBytes`
  (every element `< 256`).
* Python `str` values that only flow through length / membership / lowercase
  operations are `List Char`.
* The AES-256-CBC block cipher and the PBKDF2 key-derivation function are
  external library calls (`cryptography.hazmat`), not code of this repository;
  they are modelled as an abstract `CipherModel` whose lawfulness assumptions
  (decryption inverts encryption on block-aligned inputs, length preservation,
  byte-valuedness) are exactly the guarantees of the real primitives.
* Randomness (`os.urandom`, `secrets.choice`, shuffling) is passed in as
  explicit parameters, universally quantified in the theorems.
* A Python function that can raise is modelled with `Option` (`none` = the
  raised exception, which `decrypt_data` converts to `ValueError`).
-/

namespace PwVault

/-- Python `bytes`: every element of the list is an octet. -/
def isBytes (l : List Nat) : Prop := ∀ b ∈ l, b < 256

instance (l : List Nat) : Decidable (isBytes l) := List.decidableBAll _ l

/-! ### base64 (models `base64.b64encode` / `base64.b64decode`) -/

/-- Character of the standard base64 alphabet at a given index (0–63). -/
def b64CharOfIndex (i : Nat) : Char :=
  if i < 26 then Char.ofNat (65 + i)
  else if i < 52 then Char.ofNat (97 + (i - 26))
  else if i < 62 then Char.ofNat (48 + (i - 52))
  else if i = 62 then '+'
  else '/'

/-- Index of a character in the standard base64 alphabet, `none` if absent. -/
def b64IndexOfChar (c : Char) : Option Nat :=
  let n := c.toNat
  if 65 ≤ n ∧ n ≤ 90 then some (n - 65)
  else if 97 ≤ n ∧ n ≤ 122 then some (26 + (n - 97))
  else if 48 ≤ n ∧ n ≤ 57 then some (52 + (n - 48))
  else if c = '+' then some 62
  else if c = '/' then some 63
  else none

/-- Characters `base64.b64decode` keeps: alphabet characters and padding.
(CPython's non-strict decoder discards every other character.) -/
def b64Keep (c : Char) : Bool := (b64IndexOfChar c).isSome || c = '='

/-- Models `base64.b64encode`: 3 input bytes become 4 alphabet characters,
a trailing group of 1 or 2 bytes is completed with `'='` padding. -/
def b64EncodeBytes : List Nat → List Char
  | [] => []
  | [b1] =>
      [b64CharOfIndex (b1 / 4), b64CharOfIndex (b1 % 4 * 16), '=', '=']
  | [b1, b2] =>
      [b64CharOfIndex (b1 / 4), b64CharOfIndex (b1 % 4 * 16 + b2 / 16),
       b64CharOfIndex (b2 % 16 * 4), '=']
  | b1 :: b2 :: b3 :: rest =>
      [b64CharOfIndex (b1 / 4), b64CharOfIndex (b1 % 4 * 16 + b2 / 16),
       b64CharOfIndex (b2 % 16 * 4 + b3 / 64), b64CharOfIndex (b3 % 64)]
        ++ b64EncodeBytes rest

/-- Quad-wise decoding of a base64 character stream (already filtered to the
alphabet plus `'='`); `none` models `binascii.Error` (bad padding / leftover
characters), which `b64decode` raises. -/
def b64DecodeQuads : List Char → Option (List Nat)
  | [] => some []
  | c1 :: c2 :: c3 :: c4 :: rest =>
      match b64IndexOfChar c1, b64IndexOfChar c2 with
      | some i1, some i2 =>
          if c3 = '=' then
            if c4 = '=' ∧ rest = [] then some [i1 * 4 + i2 / 16] else none
          else
            match b64IndexOfChar c3 with
            | some i3 =>
                if c4 = '=' then
                  if rest = [] then
                    some [i1 * 4 + i2 / 16, i2 % 16 * 16 + i3 / 4]
                  else none
                else
                  match b64IndexOfChar c4 with
                  | some i4 =>
                      (b64DecodeQuads rest).map
                        (fun tl =>
                          (i1 * 4 + i2 / 16) :: (i2 % 16 * 16 + i3 / 4) ::
                            (i3 % 4 * 64 + i4) :: tl)
                  | none => none
            | none => none
      | _, _ => none
  | _ => none

/-- Models `base64.b64decode` (default non-strict mode): characters outside
the alphabet are discarded, then the stream is decoded in groups of four. -/
def b64Decode (s : List Char) : Option (List Nat) :=
  b64DecodeQuads (s.filter b64Keep)

theorem b64Index_char : ∀ i < 64, b64IndexOfChar (b64CharOfIndex i) = some i := by
  decide

theorem b64Char_ne_pad : ∀ i < 64, b64CharOfIndex i ≠ '=' := by
  decide

theorem b64Keep_char : ∀ i < 64, b64Keep (b64CharOfIndex i) = true := by
  decide

theorem b64Keep_pad : b64Keep '=' = true := by decide

theorem b64_roundtrip : ∀ l : List Nat, isBytes l →
    b64Decode (b64EncodeBytes l) = some l := by
  intro l
  induction l using b64EncodeBytes.induct with
  | case1 =>
      intro _
      simp [b64Decode, b64EncodeBytes, b64DecodeQuads]
  | case2 b1 =>
      intro h
      have hb1 : b1 < 256 := h b1 (by simp)
      have h1 : b1 / 4 < 64 := by omega
      have h2 : b1 % 4 * 16 < 64 := by omega
      simp only [b64EncodeBytes, b64Decode, List.filter, b64Keep_char _ h1,
        b64Keep_char _ h2, b64Keep_pad, b64DecodeQuads,
        b64Index_char _ h1, b64Index_char _ h2]
      simp
      omega
  | case3 b1 b2 =>
      intro h
      have hb1 : b1 < 256 := h b1 (by simp)
      have hb2 : b2 < 256 := h b2 (by simp)
      have h1 : b1 / 4 < 64 := by omega
      have h2 : b1 % 4 * 16 + b2 / 16 < 64 := by omega
      have h3 : b2 % 16 * 4 < 64 := by omega
      simp only [b64EncodeBytes, b64Decode, List.filter, b64Keep_char _ h1,
        b64Keep_char _ h2, b64Keep_char _ h3, b64Keep_pad, b64DecodeQuads,
        b64Index_char _ h1, b64Index_char _ h2, b64Index_char _ h3]
      rw [if_neg (b64Char_ne_pad _ h3)]
      simp
      omega
  | case4 b1 b2 b3 rest ih =>
      intro h
      have hb1 : b1 < 256 := h b1 (by simp)
      have hb2 : b2 < 256 := h b2 (by simp)
      have hb3 : b3 < 256 := h b3 (by simp)
      have hrest : isBytes rest := fun b hb => h b (by simp [hb])
      have h1 : b1 / 4 < 64 := by omega
      have h2 : b1 % 4 * 16 + b2 / 16 < 64 := by omega
      have h3 : b2 % 16 * 4 + b3 / 64 < 64 := by omega
      have h4 : b3 % 64 < 64 := by omega
      have ih' := ih hrest
      simp only [b64Decode] at ih'
      simp only [b64EncodeBytes, b64Decode, List.filter_append, List.filter,
        b64Keep_char _ h1, b64Keep_char _ h2, b64Keep_char _ h3,
        b64Keep_char _ h4]
      simp only [List.cons_append, List.nil_append, b64DecodeQuads,
        b64Index_char _ h1, b64Index_char _ h2, b64Index_char _ h3,
        b64Index_char _ h4]
      rw [if_neg (b64Char_ne_pad _ h3), if_neg (b64Char_ne_pad _ h4)]
      simp only [List.append_eq, List.nil_append, ih', Option.map_some',
        Option.some.injEq, List.cons.injEq]
      refine ⟨by omega, by omega, by omega, trivial⟩

/-! ### Abstract model of the external crypto primitives

`crypto_utils.py` delegates PBKDF2-HMAC-SHA256 (`PBKDF2HMAC.derive`) and
AES-256-CBC (`Cipher/encryptor/decryptor`) to the `cryptography` library.
Those primitives are not code of this repository; they are abstracted as
deterministic functions with the library's guarantees as explicit laws. -/

structure CipherModel where
  /-- `_derive_key(password, salt)` (PBKDF2; deterministic, returns 32 bytes). -/
  kdf : List Nat → List Nat → List Nat
  /-- AES-CBC encryption of a block-aligned byte string: `key → iv → data → ct`. -/
  enc : List Nat → List Nat → List Nat → List Nat
  /-- AES-CBC decryption: `key → iv → ct → plaintext`. -/
  dec : List Nat → List Nat → List Nat → List Nat

/-- CBC decryption inverts CBC encryption under the same key and IV. -/
def CipherEncDec (m : CipherModel) : Prop :=
  ∀ key iv d, d.length % 16 = 0 → m.dec key iv (m.enc key iv d) = d

/-- CBC encryption preserves the byte length. -/
def CipherEncLen (m : CipherModel) : Prop :=
  ∀ key iv d, (m.enc key iv d).length = d.length

/-- CBC decryption preserves the byte length. -/
def CipherDecLen (m : CipherModel) : Prop :=
  ∀ key iv c, (m.dec key iv c).length = c.length

/-- CBC encryption of octets produces octets. -/
def CipherEncBytes (m : CipherModel) : Prop :=
  ∀ key iv d, isBytes d → isBytes (m.enc key iv d)

/-- The KDF produces octets. -/
def CipherKdfBytes (m : CipherModel) : Prop :=
  ∀ password salt, isBytes (m.kdf password salt)

/-- Degenerate but law-abiding cipher model used to evaluate the theorems on
concrete inputs (AES with any fixed key/IV is some permutation; the laws only
assume invertibility, length preservation and byte-valuedness). -/
def idCipher : CipherModel :=
  { kdf := fun _ _ => List.replicate 32 0
    enc := fun _ _ d => d
    dec := fun _ _ c => c }

/-! ### UTF-8 validity (models `bytes.decode('utf-8')` succeeding) -/

/-- `inRange lo hi b` is `lo ≤ b < hi`. -/
def inRange (lo hi b : Nat) : Bool := decide (lo ≤ b) && decide (b < hi)

/-- UTF-8 continuation byte `0x80–0xBF`. -/
def utf8Cont (b : Nat) : Bool := inRange 128 192 b

/-- Strict UTF-8 validity of a byte string, as checked by Python's
`bytes.decode('utf-8')` (rejecting overlong forms, surrogates and
code points above U+10FFFF). -/
def validUtf8 : List Nat → Bool
  | [] => true
  | b :: rest =>
      if b < 128 then validUtf8 rest
      else if b < 194 then false
      else if b < 224 then
        match rest with
        | b2 :: r => utf8Cont b2 && validUtf8 r
        | [] => false
      else if b < 240 then
        match rest with
        | b2 :: b3 :: r =>
            (if b = 224 then inRange 160 192 b2
             else if b = 237 then inRange 128 160 b2
             else utf8Cont b2) && utf8Cont b3 && validUtf8 r
        | _ => false
      else if b < 245 then
        match rest with
        | b2 :: b3 :: b4 :: r =>
            (if b = 240 then inRange 144 192 b2
             else if b = 244 then inRange 128 144 b2
             else utf8Cont b2) && utf8Cont b3 && utf8Cont b4 && validUtf8 r
        | _ => false
      else false

/-! ### `crypto_utils.py` -/

/-- PKCS7 padding as written in `encrypt_data` (lines 67–70):
`padding_length = 16 - (len(data_bytes) % 16)` followed by appending
`padding_length` copies of the byte `padding_length`. -/
def pkcs7Pad (data_bytes : List Nat) : List Nat :=
  let padding_length := 16 - data_bytes.length % 16
  data_bytes ++ List.replicate padding_length padding_length

/-- `CryptoUtils.encrypt_data` (crypto_utils.py lines 41–79), with the salt
and IV sampled by `os.urandom` passed in explicitly, and the plaintext given
as its UTF-8 byte encoding.  Returns the base64 blob `salt ‖ iv ‖ ct`. -/
def encrypt_data (m : CipherModel) (salt iv password data : List Nat) :
    List Char :=
  let key := m.kdf password salt
  let encrypted_data := m.enc key iv (pkcs7Pad data)
  let combined := salt ++ iv ++ encrypted_data
  b64EncodeBytes combined

/-- `CryptoUtils.decrypt_data` (crypto_utils.py lines 81–125).  `none` models
a raised `ValueError` (every internal exception is re-raised as `ValueError`).
The guards mirror the library calls that raise: `modes.CBC(iv)` rejects an IV
that is not 16 bytes, `decryptor.finalize()` rejects a ciphertext whose length
is not a multiple of the block size, `padded_data[-1]` raises on an empty
result, and `.decode('utf-8')` raises on invalid UTF-8.  Note the source does
NOT validate the padding bytes: `padded_data[:-padding_length]` just strips
`padding_length` bytes (stripping everything when the final byte is 0, since
`[:-0] = [:0]` in Python). -/
def decrypt_data (m : CipherModel) (password : List Nat)
    (encrypted_data : List Char) : Option (List Nat) :=
  match b64Decode encrypted_data with
  | none => none
  | some combined =>
      let salt := combined.take 16
      let iv := (combined.drop 16).take 16
      let encrypted_bytes := combined.drop 32
      if iv.length = 16 then
        let key := m.kdf password salt
        if encrypted_bytes.length % 16 = 0 then
          let padded_data := m.dec key iv encrypted_bytes
          match padded_data.getLast? with
          | none => none
          | some padding_length =>
              let data_bytes :=
                if padding_length = 0 then []
                else padded_data.take (padded_data.length - padding_length)
              if validUtf8 data_bytes then some data_bytes else none
        else none
      else none

/-- `CryptoUtils.hash_password` (crypto_utils.py lines 127–153), with the
random salt passed in explicitly: base64 of `salt ‖ PBKDF2(password, salt)`. -/
def hash_password (m : CipherModel) (password salt : List Nat) : List Char :=
  let hash_bytes := m.kdf password salt
  b64EncodeBytes (salt ++ hash_bytes)

/-- `CryptoUtils.verify_password` (crypto_utils.py lines 155–187): decode the
stored hash, split off the 16-byte salt, re-derive and compare; any exception
(in particular a base64 decode error) yields `False`. -/
def verify_password (m : CipherModel) (password : List Nat)
    (stored_hash : List Char) : Bool :=
  match b64Decode stored_hash with
  | none => false
  | some combined =>
      let salt := combined.take 16
      let stored_hash_bytes := combined.drop 16
      decide (m.kdf password salt = stored_hash_bytes)

theorem pkcs7Pad_isBytes (data : List Nat) (h : isBytes data) :
    isBytes (pkcs7Pad data) := by
  intro b hb
  simp only [pkcs7Pad, List.mem_append] at hb
  rcases hb with hb | hb
  · exact h b hb
  · have := List.eq_of_mem_replicate hb
    omega

theorem pkcs7Pad_len (data : List Nat) :
    (pkcs7Pad data).length = data.length + (16 - data.length % 16) := by
  simp [pkcs7Pad]

/-- C1: decrypting an encryption made with the same master password returns
the original plaintext, for every lawful cipher model, every 16-byte salt and
IV, every password and every valid-UTF-8 plaintext byte string. -/
theorem C1_decrypt_encrypt_id
    (m : CipherModel) (hED : CipherEncDec m) (hEL : CipherEncLen m)
    (hEB : CipherEncBytes m)
    (salt iv password data : List Nat)
    (hsl : salt.length = 16) (hsb : isBytes salt)
    (hil : iv.length = 16) (hib : isBytes iv)
    (hdb : isBytes data) (hutf : validUtf8 data = true) :
    decrypt_data m password (encrypt_data m salt iv password data)
      = some data := by
  have hplen : (pkcs7Pad data).length = data.length + (16 - data.length % 16) :=
    pkcs7Pad_len data
  have hpmod : (pkcs7Pad data).length % 16 = 0 := by
    rw [hplen]; omega
  have hpb : isBytes (pkcs7Pad data) := pkcs7Pad_isBytes data hdb
  have hctb : isBytes (m.enc (m.kdf password salt) iv (pkcs7Pad data)) :=
    hEB _ _ _ hpb
  have hcomb :
      isBytes (salt ++ iv ++ m.enc (m.kdf password salt) iv (pkcs7Pad data)) := by
    intro b hb
    simp only [List.mem_append] at hb
    rcases hb with (hb | hb) | hb
    · exact hsb b hb
    · exact hib b hb
    · exact hctb b hb
  have hb64 :
      b64Decode (b64EncodeBytes
        (salt ++ iv ++ m.enc (m.kdf password salt) iv (pkcs7Pad data)))
        = some (salt ++ iv ++ m.enc (m.kdf password salt) iv (pkcs7Pad data)) :=
    b64_roundtrip _ hcomb
  have htake : (salt ++ iv ++ m.enc (m.kdf password salt) iv
      (pkcs7Pad data)).take 16 = salt := by
    rw [List.append_assoc, ← hsl, List.take_left]
  have hdrop16 : (salt ++ iv ++ m.enc (m.kdf password salt) iv
      (pkcs7Pad data)).drop 16
      = iv ++ m.enc (m.kdf password salt) iv (pkcs7Pad data) := by
    rw [List.append_assoc, ← hsl, List.drop_left]
  have htakeiv : (iv ++ m.enc (m.kdf password salt) iv
      (pkcs7Pad data)).take 16 = iv := by
    rw [← hil, List.take_left]
  have hdrop32 : (salt ++ iv ++ m.enc (m.kdf password salt) iv
      (pkcs7Pad data)).drop 32
      = m.enc (m.kdf password salt) iv (pkcs7Pad data) := by
    have : (32 : Nat) = 16 + 16 := rfl
    rw [this, ← List.drop_drop, hdrop16, ← hil, List.drop_left]
  have hctlen : (m.enc (m.kdf password salt) iv (pkcs7Pad data)).length % 16
      = 0 := by
    rw [hEL]; exact hpmod
  have hdec : m.dec (m.kdf password salt) iv
      (m.enc (m.kdf password salt) iv (pkcs7Pad data)) = pkcs7Pad data :=
    hED _ _ _ hpmod
  have hpadne : (16 - data.length % 16) ≠ 0 := by omega
  have hlast : (pkcs7Pad data).getLast? = some (16 - data.length % 16) := by
    simp only [pkcs7Pad, List.getLast?_append, List.getLast?_replicate,
      if_neg hpadne]
    rfl
  have htakedata :
      (pkcs7Pad data).take ((pkcs7Pad data).length - (16 - data.length % 16))
        = data := by
    have hlen : (pkcs7Pad data).length - (16 - data.length % 16)
        = data.length := by rw [hplen]; omega
    rw [hlen]
    simp only [pkcs7Pad]
    exact List.take_left data _
  simp only [encrypt_data, decrypt_data, hb64, htake, htakeiv, hdrop16, hdrop32,
    hil, if_pos rfl, hctlen, hdec, hlast, if_neg hpadne, htakedata, hutf,
    if_pos rfl]
  simp

/-- Witness evaluating `C1_decrypt_encrypt_id` on concrete inputs. -/
theorem C1_decrypt_encrypt_id_witness :
    decrypt_data idCipher []
      (encrypt_data idCipher (List.replicate 16 0) (List.replicate 16 0) []
        [104, 105]) = some [104, 105] :=
  C1_decrypt_encrypt_id idCipher
    (fun _ _ _ _ => rfl) (fun _ _ _ => rfl) (fun _ _ _ h => h)
    (List.replicate 16 0) (List.replicate 16 0) [] [104, 105]
    (by decide) (by decide) (by decide) (by decide) (by decide) (by decide)

/-- C3 (amended): `decrypt_data` raises `ValueError` when the base64 does not
decode, when the decoded blob is shorter than 32 bytes plus one 16-byte block,
or when the ciphertext length is not a multiple of the block size.  (Padding
consistency is NOT checked by the source; see `C3_counterexample`.) -/
theorem C3_decrypt_malformed_rejected
    (m : CipherModel) (hDL : CipherDecLen m) (password : List Nat)
    (blob : List Char) :
    (b64Decode blob = none → decrypt_data m password blob = none) ∧
    (∀ combined, b64Decode blob = some combined → combined.length < 48 →
      decrypt_data m password blob = none) ∧
    (∀ combined, b64Decode blob = some combined →
      (combined.length - 32) % 16 ≠ 0 → decrypt_data m password blob = none) := by
  refine ⟨fun h => by simp [decrypt_data, h], ?_, ?_⟩
  · intro combined hc hlen
    simp only [decrypt_data, hc]
    by_cases h32 : combined.length < 32
    · rw [if_neg]
      simp only [List.length_take, List.length_drop]
      omega
    · rw [if_pos (show ((combined.drop 16).take 16).length = 16 by
        simp only [List.length_take, List.length_drop]; omega)]
      by_cases hz : combined.length = 32
      · rw [if_pos (show (combined.drop 32).length % 16 = 0 by
          simp only [List.length_drop]; omega)]
        have hpl : (m.dec (m.kdf password (combined.take 16))
            ((combined.drop 16).take 16) (combined.drop 32)).length = 0 := by
          rw [hDL]; simp only [List.length_drop]; omega
        rw [List.length_eq_zero.mp hpl]
        rfl
      · rw [if_neg]
        simp only [List.length_drop]
        omega
  · intro combined hc hmod
    simp only [decrypt_data, hc]
    have h32 : 32 < combined.length := by omega
    rw [if_pos (show ((combined.drop 16).take 16).length = 16 by
      simp only [List.length_take, List.length_drop]; omega)]
    rw [if_neg]
    simpa only [List.length_drop] using hmod

/-- Witness evaluating `C3_decrypt_malformed_rejected` on a concrete blob
(a single character is a base64 decode error). -/
theorem C3_decrypt_malformed_rejected_witness :
    decrypt_data idCipher [] ['A'] = none :=
  (C3_decrypt_malformed_rejected idCipher (fun _ _ _ => rfl) [] ['A']).1
    (by decide)

/-- Decrypted padded block whose trailing padding is inconsistent: final byte
2 but the preceding byte is 65, so PKCS7 validation would reject it. -/
def c3BadPadded : List Nat :=
  [72, 69, 76, 76, 79, 87, 79, 82, 76, 68, 33, 33, 33, 33, 65, 2]

/-- Well-formed blob (16-byte salt, 16-byte IV, one cipher block) whose
decryption under `idCipher` is `c3BadPadded`. -/
def c3BadBlob : List Char :=
  b64EncodeBytes (List.replicate 16 0 ++ List.replicate 16 0 ++ c3BadPadded)

/-- C3 counterexample: the claim "decrypt_data raises ValueError whenever the
trailing padding bytes are inconsistent with the padding length encoded in the
final byte" is false — `decrypt_data` strips the advertised number of bytes
without checking them and returns plaintext for this inconsistently padded
blob. -/
theorem C3_counterexample :
    decrypt_data idCipher [] c3BadBlob
      = some [72, 69, 76, 76, 79, 87, 79, 82, 76, 68, 33, 33, 33, 33] ∧
    c3BadPadded.getLast? = some 2 ∧ ¬ [2, 2] <:+ c3BadPadded := by
  refine ⟨by decide, by decide, by decide⟩

theorem combined_take_salt (salt iv ct : List Nat) (hsl : salt.length = 16) :
    (salt ++ iv ++ ct).take 16 = salt := by
  rw [List.append_assoc, ← hsl, List.take_left]

theorem combined_take_iv (salt iv ct : List Nat) (hsl : salt.length = 16)
    (hil : iv.length = 16) :
    ((salt ++ iv ++ ct).drop 16).take 16 = iv := by
  have h1 : (salt ++ iv ++ ct).drop 16 = iv ++ ct := by
    rw [List.append_assoc, ← hsl, List.drop_left]
  rw [h1, ← hil, List.take_left]

/-- C6: two encryptions of the same plaintext under the same password whose
sampled salts (or IVs) differ produce different base64 blobs, because salt and
IV sit at fixed offsets of the encoded output. -/
theorem C6_fresh_salt_iv_blobs_differ
    (m : CipherModel) (hEB : CipherEncBytes m)
    (salt1 iv1 salt2 iv2 password data : List Nat)
    (hs1 : salt1.length = 16) (hsb1 : isBytes salt1)
    (hi1 : iv1.length = 16) (hib1 : isBytes iv1)
    (hs2 : salt2.length = 16) (hsb2 : isBytes salt2)
    (hi2 : iv2.length = 16) (hib2 : isBytes iv2)
    (hdb : isBytes data)
    (hne : salt1 ≠ salt2 ∨ iv1 ≠ iv2) :
    encrypt_data m salt1 iv1 password data
      ≠ encrypt_data m salt2 iv2 password data := by
  intro heq
  have hpb : isBytes (pkcs7Pad data) := pkcs7Pad_isBytes data hdb
  have hcomb1 : isBytes (salt1 ++ iv1 ++ m.enc (m.kdf password salt1) iv1
      (pkcs7Pad data)) := by
    intro b hb
    simp only [List.mem_append] at hb
    rcases hb with (hb | hb) | hb
    · exact hsb1 b hb
    · exact hib1 b hb
    · exact hEB _ _ _ hpb b hb
  have hcomb2 : isBytes (salt2 ++ iv2 ++ m.enc (m.kdf password salt2) iv2
      (pkcs7Pad data)) := by
    intro b hb
    simp only [List.mem_append] at hb
    rcases hb with (hb | hb) | hb
    · exact hsb2 b hb
    · exact hib2 b hb
    · exact hEB _ _ _ hpb b hb
  have h1 := b64_roundtrip _ hcomb1
  have h2 := b64_roundtrip _ hcomb2
  simp only [encrypt_data] at heq
  rw [heq, h2] at h1
  have hcc := Option.some.inj h1
  rcases hne with hne | hne
  · apply hne
    calc salt1 = _ := (combined_take_salt salt1 iv1 _ hs1).symm
    _ = _ := by rw [← hcc]
    _ = salt2 := combined_take_salt salt2 iv2 _ hs2
  · apply hne
    calc iv1 = _ := (combined_take_iv salt1 iv1 _ hs1 hi1).symm
    _ = _ := by rw [← hcc]
    _ = iv2 := combined_take_iv salt2 iv2 _ hs2 hi2

/-- Witness evaluating `C6_fresh_salt_iv_blobs_differ` on concrete inputs. -/
theorem C6_fresh_salt_iv_blobs_differ_witness :
    encrypt_data idCipher (List.replicate 16 0) (List.replicate 16 0) [] [104]
      ≠ encrypt_data idCipher (List.replicate 16 1) (List.replicate 16 0) []
        [104] :=
  C6_fresh_salt_iv_blobs_differ idCipher (fun _ _ _ h => h)
    (List.replicate 16 0) (List.replicate 16 0)
    (List.replicate 16 1) (List.replicate 16 0) [] [104]
    (by decide) (by decide) (by decide) (by decide)
    (by decide) (by decide) (by decide) (by decide)
    (by decide) (Or.inl (by decide))

/-- C9: `verify_password` accepts the hash produced by `hash_password` for the
same password (for every sampled 16-byte salt), and returns `False` — rather
than raising — on a stored hash whose base64 does not decode. -/
theorem C9_hash_verify_roundtrip
    (m : CipherModel) (hKB : CipherKdfBytes m) (password salt : List Nat)
    (hsl : salt.length = 16) (hsb : isBytes salt) :
    verify_password m password (hash_password m password salt) = true ∧
    ∀ stored, b64Decode stored = none →
      verify_password m password stored = false := by
  constructor
  · have hcomb : isBytes (salt ++ m.kdf password salt) := by
      intro b hb
      rcases List.mem_append.mp hb with hb | hb
      · exact hsb b hb
      · exact hKB password salt b hb
    have hb64 := b64_roundtrip _ hcomb
    have htake : (salt ++ m.kdf password salt).take 16 = salt := by
      rw [← hsl, List.take_left]
    have hdrop : (salt ++ m.kdf password salt).drop 16 = m.kdf password salt := by
      rw [← hsl, List.drop_left]
    simp [verify_password, hash_password, hb64, htake, hdrop]
  · intro stored h
    simp [verify_password, h]

theorem idCipher_kdfBytes : CipherKdfBytes idCipher := by
  intro p s b hb
  have := List.eq_of_mem_replicate hb
  omega

/-- Witness evaluating `C9_hash_verify_roundtrip` on concrete inputs. -/
theorem C9_hash_verify_roundtrip_witness :
    verify_password idCipher []
      (hash_password idCipher [] (List.replicate 16 0)) = true ∧
    verify_password idCipher [] ['A'] = false :=
  ⟨(C9_hash_verify_roundtrip idCipher idCipher_kdfBytes []
      (List.replicate 16 0) (by decide) (by decide)).1,
   (C9_hash_verify_roundtrip idCipher idCipher_kdfBytes []
      (List.replicate 16 0) (by decide) (by decide)).2 ['A'] (by decide)⟩

/-! ### `password_manager.py`

`PasswordEntry` / `PasswordManager`, with Python strings as `List Char`,
`datetime.now().isoformat()` passed in as an explicit `now` argument, and the
persisted file modelled by its decrypted content (`Option (List PMEntry)`;
`encrypt_data`/`decrypt_data` round-trip by C1).  `str.lower()` is modelled by
per-character `Char.toLower` (adequate for these claims; full Unicode case
mapping is out of scope). -/

structure PMEntry where
  service : List Char
  username : List Char
  password : List Char
  notes : List Char
  created_at : List Char
  updated_at : List Char
deriving DecidableEq

/-- Python `s.lower()`. -/
def lowerStr (s : List Char) : List Char := s.map Char.toLower

/-- The case-insensitive identity `(service.lower(), username.lower())`. -/
def entryKey (e : PMEntry) : List Char × List Char :=
  (lowerStr e.service, lowerStr e.username)

/-- The duplicate test of `add_entry` (lines 138–140) / `import_data`
(lines 293–297): `e.service.lower() == service.lower() and
e.username.lower() == username.lower()`. -/
def sameKeyB (service username : List Char) (e : PMEntry) : Bool :=
  decide (lowerStr e.service = lowerStr service)
    && decide (lowerStr e.username = lowerStr username)

structure PMState where
  entries : List PMEntry
  is_unlocked : Bool
  file : Option (List PMEntry)
deriving DecidableEq

/-- `PasswordManager.create_vault` (lines 65–89): fails if the vault file
already exists, otherwise starts unlocked with an empty entry list and
persists it immediately. -/
def create_vault (s : PMState) : Bool × PMState :=
  if s.file.isSome then (false, s)
  else (true, { entries := [], is_unlocked := true, file := some [] })

/-- `PasswordManager.unlock_vault` (lines 91–112): fails if no vault file
exists; on a decryption/parse failure (`ok = false`, e.g. wrong master
password) the state is unchanged; otherwise the persisted entries are loaded
and the vault unlocks. -/
def unlock_vault (s : PMState) (ok : Bool) : Bool × PMState :=
  match s.file with
  | none => (false, s)
  | some stored =>
      if ok then (true, { entries := stored, is_unlocked := true, file := s.file })
      else (false, s)

/-- `PasswordManager.add_entry` (lines 120–151). -/
def add_entry (s : PMState) (service username password notes now : List Char) :
    Bool × PMState :=
  if s.is_unlocked = false then (false, s)
  else if s.entries.any (sameKeyB service username) then (false, s)
  else
    let new_entry : PMEntry :=
      { service := service, username := username, password := password,
        notes := notes, created_at := now, updated_at := now }
    let es := s.entries ++ [new_entry]
    (true, { s with entries := es, file := some es })

/-- `PasswordEntry.update` (lines 42–53): replace exactly the fields that are
not `None` and refresh `updated_at`. -/
def pmUpdate (e : PMEntry)
    (service username password notes : Option (List Char)) (now : List Char) :
    PMEntry :=
  { service := service.getD e.service
    username := username.getD e.username
    password := password.getD e.password
    notes := notes.getD e.notes
    created_at := e.created_at
    updated_at := now }

/-- `PasswordManager.update_entry` (lines 153–177): bounds-checked, no
uniqueness check on the new `(service, username)` pair. -/
def update_entry (s : PMState) (index : Nat)
    (service username password notes : Option (List Char)) (now : List Char) :
    Bool × PMState :=
  if h : s.is_unlocked = true ∧ index < s.entries.length then
    let e := s.entries.get ⟨index, h.2⟩
    let es := s.entries.set index (pmUpdate e service username password notes now)
    (true, { s with entries := es, file := some es })
  else (false, s)

/-- `PasswordManager.delete_entry` (lines 179–198). -/
def delete_entry (s : PMState) (index : Nat) : Bool × PMState :=
  if s.is_unlocked = true ∧ index < s.entries.length then
    let es := s.entries.eraseIdx index
    (true, { s with entries := es, file := some es })
  else (false, s)

/-- One iteration of the import loop of `import_data` (lines 289–300):
append the imported entry unless its key already occurs. -/
def import_step (acc : List PMEntry) (e : PMEntry) : List PMEntry :=
  if acc.any (sameKeyB e.service e.username) then acc else acc ++ [e]

/-- `PasswordManager.import_data` (lines 267–306), with the decrypted import
file content passed in as `imported`. -/
def import_data (s : PMState) (imported : List PMEntry) : Bool × PMState :=
  if s.is_unlocked = false then (false, s)
  else
    let es := imported.foldl import_step s.entries
    (true, { s with entries := es, file := some es })

/-- Python's substring test `needle in hay` restricted to a match at the
front of `hay`. -/
def leadEq : List Char → List Char → Bool
  | [], _ => true
  | _ :: _, [] => false
  | a :: as, b :: bs => a == b && leadEq as bs

/-- Python's substring test `needle in hay`. -/
def hasSub (needle : List Char) : List Char → Bool
  | [] => leadEq needle []
  | c :: t => leadEq needle (c :: t) || hasSub needle t

/-- `PasswordManager.search_entries` (lines 200–222): case-insensitive
substring match over service, username and notes, returning the indices of
matching entries; empty while locked. -/
def search_entries (s : PMState) (query : List Char) : List Nat :=
  if s.is_unlocked = false then []
  else
    let query_lower := lowerStr query
    s.entries.enum.filterMap fun ie =>
      if hasSub query_lower (lowerStr ie.2.service)
          || hasSub query_lower (lowerStr ie.2.username)
          || hasSub query_lower (lowerStr ie.2.notes) then some ie.1 else none

/-- The three shapes of dictionary returned by `get_vault_stats`:
`{}` when locked, `{'total_entries': 0}` when empty, and the full
five-statistic dictionary otherwise. -/
inductive StatsResult where
  | locked
  | emptyVault
  | stats (total_entries weak_passwords duplicate_passwords : Nat)
      (oldest_entry newest_entry : List Char)
deriving DecidableEq

/-- `PasswordManager.get_vault_stats` (lines 334–371).  `min`/`max` over
`created_at` use the lexicographic order on `List Char`, matching Python's
string comparison by code point; the duplicate count follows the source's
occurrence dictionary: distinct password values occurring more than once. -/
def get_vault_stats (s : PMState) : StatsResult :=
  if s.is_unlocked = false then .locked
  else
    match s.entries with
    | [] => .emptyVault
    | e :: rest =>
        let pwds := (e :: rest).map (fun x => x.password)
        .stats (e :: rest).length
          ((e :: rest).countP (fun x => decide (x.password.length < 8)))
          (pwds.dedup.countP (fun p => decide (1 < pwds.count p)))
          (rest.foldl (fun a x => min a x.created_at) e.created_at)
          (rest.foldl (fun a x => max a x.created_at) e.created_at)

/-- The uniqueness invariant of the spec: all case-insensitive
`(service, username)` keys in an entry list are pairwise distinct. -/
def KeysDistinct (l : List PMEntry) : Prop := (l.map entryKey).Nodup

instance (l : List PMEntry) : Decidable (KeysDistinct l) :=
  List.nodupDecidable _

/-- States reachable from a fresh manager (no vault file) by the public
operations named in the claim. -/
inductive Reachable : PMState → Prop where
  | init : Reachable { entries := [], is_unlocked := false, file := none }
  | create {s} : Reachable s → Reachable (create_vault s).2
  | unlock {s} (ok : Bool) : Reachable s → Reachable (unlock_vault s ok).2
  | add {s} (service username password notes now : List Char) :
      Reachable s →
      Reachable (add_entry s service username password notes now).2
  | update {s} (index : Nat)
      (service username password notes : Option (List Char)) (now : List Char) :
      Reachable s →
      Reachable (update_entry s index service username password notes now).2
  | delete {s} (index : Nat) : Reachable s → Reachable (delete_entry s index).2
  | importData {s} (imported : List PMEntry) :
      Reachable s → Reachable (import_data s imported).2

/-- Reachability restricted to `update_entry` calls that do not change the
`(service, username)` identity (service and username arguments `None`). -/
inductive ReachableSafe : PMState → Prop where
  | init : ReachableSafe { entries := [], is_unlocked := false, file := none }
  | create {s} : ReachableSafe s → ReachableSafe (create_vault s).2
  | unlock {s} (ok : Bool) : ReachableSafe s → ReachableSafe (unlock_vault s ok).2
  | add {s} (service username password notes now : List Char) :
      ReachableSafe s →
      ReachableSafe (add_entry s service username password notes now).2
  | update {s} (index : Nat) (password notes : Option (List Char))
      (now : List Char) :
      ReachableSafe s →
      ReachableSafe (update_entry s index none none password notes now).2
  | delete {s} (index : Nat) :
      ReachableSafe s → ReachableSafe (delete_entry s index).2
  | importData {s} (imported : List PMEntry) :
      ReachableSafe s → ReachableSafe (import_data s imported).2

/-- Invariant carried through the induction: both the in-memory entries and
the persisted file contents have pairwise-distinct keys. -/
def VaultInv (s : PMState) : Prop :=
  KeysDistinct s.entries ∧ ∀ l, s.file = some l → KeysDistinct l

theorem set_get_self {α : Type} (l : List α) (i : Nat) (h : i < l.length) :
    l.set i (l.get ⟨i, h⟩) = l := by
  induction l generalizing i with
  | nil => simp at h
  | cons a t ih =>
      cases i with
      | zero => simp
      | succ j => simpa using ih j (by simpa using h)

theorem keysDistinct_append_one (l : List PMEntry) (e : PMEntry)
    (hd : KeysDistinct l)
    (hnew : l.any (sameKeyB e.service e.username) = false) :
    KeysDistinct (l ++ [e]) := by
  unfold KeysDistinct at *
  rw [List.map_append, List.nodup_append]
  refine ⟨hd, by simp, ?_⟩
  intro k hk hke
  simp only [List.map_cons, List.map_nil, List.mem_singleton] at hke
  obtain ⟨x, hx, hxk⟩ := List.mem_map.mp hk
  have hfalse : sameKeyB e.service e.username x = false := by
    by_contra hcon
    have : l.any (sameKeyB e.service e.username) = true :=
      List.any_eq_true.mpr ⟨x, hx, by revert hcon; cases sameKeyB e.service e.username x <;> simp⟩
    rw [this] at hnew
    exact Bool.noConfusion hnew
  rw [← hxk] at hke
  simp only [sameKeyB, Bool.and_eq_false_iff, decide_eq_false_iff_not] at hfalse
  have h1 : lowerStr x.service = lowerStr e.service := congrArg Prod.fst hke
  have h2 : lowerStr x.username = lowerStr e.username := congrArg Prod.snd hke
  rcases hfalse with hf | hf
  · exact hf h1
  · exact hf h2

theorem keysDistinct_set (l : List PMEntry) (i : Nat) (e' : PMEntry)
    (hi : i < l.length) (hk : entryKey e' = entryKey (l.get ⟨i, hi⟩))
    (hd : KeysDistinct l) : KeysDistinct (l.set i e') := by
  unfold KeysDistinct at *
  rw [List.map_set]
  have hget : entryKey (l.get ⟨i, hi⟩)
      = (l.map entryKey).get ⟨i, by simpa using hi⟩ := by
    simp
  rw [hk, hget, set_get_self]
  exact hd

theorem keysDistinct_eraseIdx (l : List PMEntry) (i : Nat)
    (hd : KeysDistinct l) : KeysDistinct (l.eraseIdx i) :=
  ((List.eraseIdx_sublist l i).map entryKey).nodup hd

theorem keysDistinct_import_foldl (imported : List PMEntry) :
    ∀ acc, KeysDistinct acc → KeysDistinct (imported.foldl import_step acc) := by
  induction imported with
  | nil => intro acc h; exact h
  | cons e t ih =>
      intro acc h
      simp only [List.foldl_cons]
      apply ih
      unfold import_step
      split
      · exact h
      · rename_i hb
        have hb' : acc.any (sameKeyB e.service e.username) = false := by
          revert hb
          cases acc.any (sameKeyB e.service e.username) <;> simp
        exact keysDistinct_append_one acc e h hb'

theorem vaultInv_preserved_create (s : PMState) (h : VaultInv s) :
    VaultInv (create_vault s).2 := by
  unfold create_vault
  split
  · exact h
  · refine ⟨by simp [KeysDistinct], ?_⟩
    intro l hl
    simp only [Option.some.injEq] at hl
    rw [← hl]
    simp [KeysDistinct]

theorem vaultInv_preserved_unlock (s : PMState) (ok : Bool) (h : VaultInv s) :
    VaultInv (unlock_vault s ok).2 := by
  cases hf : s.file with
  | none => simpa [unlock_vault, hf] using h
  | some stored =>
      cases ok with
      | false => simpa [unlock_vault, hf] using h
      | true =>
          have hks := h.2 stored hf
          simp only [unlock_vault, hf]
          refine ⟨hks, ?_⟩
          intro l hl
          have hsl : stored = l := by simpa using hl
          rw [← hsl]
          exact hks

theorem vaultInv_preserved_add (s : PMState)
    (service username password notes now : List Char) (h : VaultInv s) :
    VaultInv (add_entry s service username password notes now).2 := by
  unfold add_entry
  split
  · exact h
  · split
    · exact h
    · rename_i hdup
      have hdup' : s.entries.any (sameKeyB service username) = false := by
        revert hdup
        cases s.entries.any (sameKeyB service username) <;> simp
      refine ⟨keysDistinct_append_one s.entries _ h.1 hdup', ?_⟩
      intro l hl
      simp only [Option.some.injEq] at hl
      rw [← hl]
      exact keysDistinct_append_one s.entries _ h.1 hdup'

theorem vaultInv_preserved_update_keyless (s : PMState) (index : Nat)
    (password notes : Option (List Char)) (now : List Char) (h : VaultInv s) :
    VaultInv (update_entry s index none none password notes now).2 := by
  unfold update_entry
  split
  · rename_i hc
    have hset : KeysDistinct
        (s.entries.set index
          (pmUpdate (s.entries.get ⟨index, hc.2⟩) none none password notes now)) :=
      keysDistinct_set s.entries index _ hc.2 rfl h.1
    refine ⟨hset, ?_⟩
    intro l hl
    simp only [Option.some.injEq] at hl
    rw [← hl]
    exact hset
  · exact h

theorem vaultInv_preserved_delete (s : PMState) (index : Nat) (h : VaultInv s) :
    VaultInv (delete_entry s index).2 := by
  unfold delete_entry
  split
  · refine ⟨keysDistinct_eraseIdx _ _ h.1, ?_⟩
    intro l hl
    simp only [Option.some.injEq] at hl
    rw [← hl]
    exact keysDistinct_eraseIdx _ _ h.1
  · exact h

theorem vaultInv_preserved_import (s : PMState) (imported : List PMEntry)
    (h : VaultInv s) : VaultInv (import_data s imported).2 := by
  unfold import_data
  split
  · exact h
  · refine ⟨keysDistinct_import_foldl imported s.entries h.1, ?_⟩
    intro l hl
    simp only [Option.some.injEq] at hl
    rw [← hl]
    exact keysDistinct_import_foldl imported s.entries h.1

theorem reachableSafe_vaultInv (s : PMState) (h : ReachableSafe s) :
    VaultInv s := by
  induction h with
  | init => exact ⟨by simp [KeysDistinct], fun l hl => by cases hl⟩
  | create _ ih => exact vaultInv_preserved_create _ ih
  | unlock ok _ ih => exact vaultInv_preserved_unlock _ ok ih
  | add service username password notes now _ ih =>
      exact vaultInv_preserved_add _ service username password notes now ih
  | update index password notes now _ ih =>
      exact vaultInv_preserved_update_keyless _ index password notes now ih
  | delete index _ ih => exact vaultInv_preserved_delete _ index ih
  | importData imported _ ih => exact vaultInv_preserved_import _ imported ih

/-- C2 (amended): in every state reachable by the public operations — with
`update_entry` used only in its identity-preserving form (service and
username `None`), since the source's `update_entry` performs no uniqueness
check — the case-insensitive `(service, username)` keys are pairwise
distinct; and `add_entry` returns `False` and leaves the state unchanged
whenever an entry with the same key already exists. -/
theorem C2_unique_key_invariant :
    (∀ s, ReachableSafe s → KeysDistinct s.entries) ∧
    (∀ (s : PMState) (service username password notes now : List Char),
      (∃ e ∈ s.entries, lowerStr e.service = lowerStr service ∧
        lowerStr e.username = lowerStr username) →
      add_entry s service username password notes now = (false, s)) := by
  constructor
  · intro s h
    exact (reachableSafe_vaultInv s h).1
  · intro s service username password notes now h
    obtain ⟨e, he, h1, h2⟩ := h
    unfold add_entry
    by_cases hu : s.is_unlocked = false
    · rw [if_pos hu]
    · rw [if_neg hu]
      have hany : s.entries.any (sameKeyB service username) = true :=
        List.any_eq_true.mpr ⟨e, he, by simp [sameKeyB, h1, h2]⟩
      rw [if_pos hany]

/-- Concrete single-entry reachable state for the witness. -/
def c2DemoState : PMState :=
  (add_entry (create_vault { entries := [], is_unlocked := false, file := none }).2
    ['a'] ['x'] ['p'] [] ['t']).2

/-- Witness evaluating `C2_unique_key_invariant` on concrete inputs: the
invariant at a reachable state, and a rejected case-insensitive duplicate. -/
theorem C2_unique_key_invariant_witness :
    KeysDistinct c2DemoState.entries ∧
    add_entry c2DemoState ['A'] ['X'] ['q'] [] ['u'] = (false, c2DemoState) :=
  ⟨C2_unique_key_invariant.1 c2DemoState
      (.add ['a'] ['x'] ['p'] [] ['t'] (.create .init)),
   C2_unique_key_invariant.2 c2DemoState ['A'] ['X'] ['q'] [] ['u']
      ⟨{ service := ['a'], username := ['x'], password := ['p'], notes := [],
         created_at := ['t'], updated_at := ['t'] },
        by decide, by decide, by decide⟩⟩

/-- State reached by create; add ("a","x"); add ("b","y"); then
`update_entry 1` rewriting the second entry's identity to ("A","X"). -/
def c2BadState : PMState :=
  (update_entry
    (add_entry
      (add_entry
        (create_vault { entries := [], is_unlocked := false, file := none }).2
        ['a'] ['x'] ['p'] [] ['t']).2
      ['b'] ['y'] ['p'] [] ['t']).2
    1 (some ['A']) (some ['X']) none none ['t']).2

/-- C2 counterexample: the claimed invariant is false for the operation set
as stated — `update_entry` (listed among the claim's operations) can rewrite
an entry's service/username into a case-insensitive collision with an
existing entry, because it performs no uniqueness check. -/
theorem C2_counterexample :
    Reachable c2BadState ∧ ¬ KeysDistinct c2BadState.entries := by
  constructor
  · exact .update 1 (some ['A']) (some ['X']) none none ['t']
      (.add ['b'] ['y'] ['p'] [] ['t']
        (.add ['a'] ['x'] ['p'] [] ['t']
          (.create .init)))
  · decide

theorem hasSub_nil (l : List Char) : hasSub [] l = true := by
  cases l <;> simp [hasSub, leadEq]

theorem filterMap_some_fst (l : List (Nat × PMEntry)) :
    (l.filterMap fun ie => some ie.1) = l.map Prod.fst := by
  induction l with
  | nil => rfl
  | cons a t ih => simp [ih]

/-- C10: with the vault unlocked, searching for the empty string matches every
entry (the empty string is a substring of every field), returning the full
index list `[0, …, n-1]`; while locked the result is empty. -/
theorem C10_search_empty_query (s : PMState) :
    (s.is_unlocked = true → search_entries s [] = List.range s.entries.length) ∧
    (s.is_unlocked = false → search_entries s [] = []) := by
  constructor
  · intro hu
    unfold search_entries
    rw [if_neg (by simp [hu])]
    simp only [lowerStr, List.map_nil, hasSub_nil, Bool.true_or, if_true]
    rw [filterMap_some_fst, List.enum_map_fst]
  · intro hl
    unfold search_entries
    rw [if_pos hl]

/-- Concrete unlocked two-entry vault used by the witnesses. -/
def demoVault : PMState :=
  (add_entry
    (add_entry
      (create_vault { entries := [], is_unlocked := false, file := none }).2
      ['a'] ['x'] ['p'] [] ['t']).2
    ['b'] ['y'] ['l', 'o', 'n', 'g', 'p', 'a', 's', 's'] [] ['u']).2

/-- Witness evaluating `C10_search_empty_query` on concrete states. -/
theorem C10_search_empty_query_witness :
    search_entries demoVault [] = List.range demoVault.entries.length ∧
    search_entries { entries := [], is_unlocked := false, file := none } []
      = [] :=
  ⟨(C10_search_empty_query demoVault).1 (by decide),
   (C10_search_empty_query
      { entries := [], is_unlocked := false, file := none }).2 rfl⟩

/-! ### Fold-based minimum/maximum facts for `get_vault_stats` -/

theorem foldl_min_le_init {α : Type} [LinearOrder α] (l : List α) (a : α) :
    l.foldl min a ≤ a := by
  induction l generalizing a with
  | nil => simp
  | cons b t ih => exact le_trans (ih (min a b)) (min_le_left a b)

theorem foldl_min_le_mem {α : Type} [LinearOrder α] (l : List α) (a : α) :
    ∀ x ∈ l, l.foldl min a ≤ x := by
  induction l generalizing a with
  | nil => simp
  | cons b t ih =>
      intro x hx
      rcases List.mem_cons.mp hx with rfl | hx
      · exact le_trans (foldl_min_le_init t (min a x)) (min_le_right a x)
      · exact ih (min a b) x hx

theorem foldl_min_mem {α : Type} [LinearOrder α] (l : List α) (a : α) :
    l.foldl min a = a ∨ l.foldl min a ∈ l := by
  induction l generalizing a with
  | nil => exact Or.inl rfl
  | cons b t ih =>
      have hch : min a b = a ∨ min a b = b := by
        rcases le_total a b with h | h
        · exact Or.inl (min_eq_left h)
        · exact Or.inr (min_eq_right h)
      rw [List.foldl_cons]
      rcases ih (min a b) with h | h
      · rcases hch with hm | hm
        · exact Or.inl (by rw [h, hm])
        · exact Or.inr (by rw [h, hm]; exact List.mem_cons_self b t)
      · exact Or.inr (List.mem_cons_of_mem b h)

theorem init_le_foldl_max {α : Type} [LinearOrder α] (l : List α) (a : α) :
    a ≤ l.foldl max a := by
  induction l generalizing a with
  | nil => simp
  | cons b t ih => exact le_trans (le_max_left a b) (ih (max a b))

theorem mem_le_foldl_max {α : Type} [LinearOrder α] (l : List α) (a : α) :
    ∀ x ∈ l, x ≤ l.foldl max a := by
  induction l generalizing a with
  | nil => simp
  | cons b t ih =>
      intro x hx
      rcases List.mem_cons.mp hx with rfl | hx
      · exact le_trans (le_max_right a x) (init_le_foldl_max t (max a x))
      · exact ih (max a b) x hx

theorem foldl_max_mem {α : Type} [LinearOrder α] (l : List α) (a : α) :
    l.foldl max a = a ∨ l.foldl max a ∈ l := by
  induction l generalizing a with
  | nil => exact Or.inl rfl
  | cons b t ih =>
      have hch : max a b = a ∨ max a b = b := by
        rcases le_total a b with h | h
        · exact Or.inr (max_eq_right h)
        · exact Or.inl (max_eq_left h)
      rw [List.foldl_cons]
      rcases ih (max a b) with h | h
      · rcases hch with hm | hm
        · exact Or.inl (by rw [h, hm])
        · exact Or.inr (by rw [h, hm]; exact List.mem_cons_self b t)
      · exact Or.inr (List.mem_cons_of_mem b h)

/-- C8 (amended): for every unlocked vault with at least one entry,
`get_vault_stats` returns the full five-statistic record — total count, weak
(password shorter than 8) count, number of distinct password values used by
more than one entry, and the lexicographic minimum and maximum `created_at`.
(For an unlocked empty vault the source returns only `{'total_entries': 0}`;
see `C8_counterexample`.) -/
theorem C8_vault_stats_complete (s : PMState)
    (hu : s.is_unlocked = true) (hne : s.entries ≠ []) :
    ∃ total weak dups oldest newest,
      get_vault_stats s = .stats total weak dups oldest newest ∧
      total = s.entries.length ∧
      weak = s.entries.countP (fun x => decide (x.password.length < 8)) ∧
      dups = (s.entries.map (fun x => x.password)).dedup.countP
        (fun p => decide (1 < (s.entries.map (fun x => x.password)).count p)) ∧
      oldest ∈ s.entries.map (fun x => x.created_at) ∧
      (∀ t ∈ s.entries.map (fun x => x.created_at), oldest ≤ t) ∧
      newest ∈ s.entries.map (fun x => x.created_at) ∧
      (∀ t ∈ s.entries.map (fun x => x.created_at), t ≤ newest) := by
  obtain ⟨e, rest, hes⟩ := List.exists_cons_of_ne_nil hne
  unfold get_vault_stats
  rw [if_neg (by simp [hu]), hes]
  refine ⟨_, _, _, _, _, rfl, rfl, rfl, rfl, ?_, ?_, ?_, ?_⟩
  · rw [← List.foldl_map (fun x : PMEntry => x.created_at) min rest e.created_at]
    rcases foldl_min_mem (rest.map fun x => x.created_at) e.created_at with h | h
    · rw [h]; simp
    · simp only [List.map_cons, List.mem_cons]
      exact Or.inr h
  · intro t ht
    rw [← List.foldl_map (fun x : PMEntry => x.created_at) min rest e.created_at]
    simp only [List.map_cons, List.mem_cons] at ht
    rcases ht with rfl | ht
    · exact foldl_min_le_init _ _
    · exact foldl_min_le_mem _ _ t ht
  · rw [← List.foldl_map (fun x : PMEntry => x.created_at) max rest e.created_at]
    rcases foldl_max_mem (rest.map fun x => x.created_at) e.created_at with h | h
    · rw [h]; simp
    · simp only [List.map_cons, List.mem_cons]
      exact Or.inr h
  · intro t ht
    rw [← List.foldl_map (fun x : PMEntry => x.created_at) max rest e.created_at]
    simp only [List.map_cons, List.mem_cons] at ht
    rcases ht with rfl | ht
    · exact init_le_foldl_max _ _
    · exact mem_le_foldl_max _ _ t ht

/-- Witness evaluating `C8_vault_stats_complete` on a concrete vault. -/
theorem C8_vault_stats_complete_witness :
    ∃ total weak dups oldest newest,
      get_vault_stats demoVault = .stats total weak dups oldest newest ∧
      total = demoVault.entries.length ∧
      weak = demoVault.entries.countP (fun x => decide (x.password.length < 8)) ∧
      dups = (demoVault.entries.map (fun x => x.password)).dedup.countP
        (fun p => decide (1 < (demoVault.entries.map (fun x => x.password)).count p)) ∧
      oldest ∈ demoVault.entries.map (fun x => x.created_at) ∧
      (∀ t ∈ demoVault.entries.map (fun x => x.created_at), oldest ≤ t) ∧
      newest ∈ demoVault.entries.map (fun x => x.created_at) ∧
      (∀ t ∈ demoVault.entries.map (fun x => x.created_at), t ≤ newest) :=
  C8_vault_stats_complete demoVault (by decide) (by decide)

/-- Unlocked empty vault. -/
def c8EmptyState : PMState :=
  { entries := [], is_unlocked := true, file := some [] }

/-- C8 counterexample: for an unlocked *empty* vault the source returns only
`{'total_entries': 0}` — not all five statistics — so the claim as stated
(every unlocked vault) is false. -/
theorem C8_counterexample :
    get_vault_stats c8EmptyState = .emptyVault ∧
    ¬ ∃ total weak dups oldest newest,
        get_vault_stats c8EmptyState
          = StatsResult.stats total weak dups oldest newest := by
  constructor
  · rfl
  · rintro ⟨t, w, d, o, n, h⟩
    rw [show get_vault_stats c8EmptyState = .emptyVault from rfl] at h
    exact StatsResult.noConfusion h

/-! ### Persistence trace model for `_save_data` (password_manager.py 308–317)

`_save_data` first computes `json.dumps` and `encrypt_data` (no file
operation), then runs `open(self.data_file, 'w')` — which truncates the
existing file in place — writes the blob, and closes.  The file-system effect
is modelled as a trace of events; an exception in the serialize/encrypt step
(`encResult = none`) propagates before any file operation. -/

inductive FsOp where
  /-- `open(path, 'w')`: truncates the file at `path` to empty on open. -/
  | openTruncate (path : List Char)
  /-- `f.write(content)`. -/
  | write (content : List Char)
  /-- Closing the handle (end of the `with` block). -/
  | close
deriving DecidableEq

/-- The sequence of file operations `_save_data` performs, given the result of
the serialize+encrypt step (`none` = that step raised). -/
def save_data_trace (path : List Char) (encResult : Option (List Char)) :
    List FsOp :=
  match encResult with
  | none => []
  | some encrypted_data =>
      [.openTruncate path, .write encrypted_data, .close]

/-- Effect of one file operation on the vault file's content (single-file
store; `none` = the file does not exist). -/
def applyFsOp (file : Option (List Char)) (op : FsOp) : Option (List Char) :=
  match op with
  | .openTruncate _ => some []
  | .write c => some (file.getD [] ++ c)
  | .close => file

def runFsTrace (file : Option (List Char)) (ops : List FsOp) :
    Option (List Char) :=
  ops.foldl applyFsOp file

/-- C4 (amended): if the serialize or encrypt step of a persist fails, no file
operation is performed, so the previously persisted vault file's content is
unchanged — the safety comes from ordering (encryption completes before the
file is opened), not from a write-new-then-swap; on success the source
overwrites the vault file in place via a truncating `open` followed by the
write of the complete blob. -/
theorem C4_failed_persist_preserves_file (path old blob : List Char) :
    (save_data_trace path none = [] ∧
      runFsTrace (some old) (save_data_trace path none) = some old) ∧
    (save_data_trace path (some blob)
        = [.openTruncate path, .write blob, .close] ∧
      runFsTrace (some old) (save_data_trace path (some blob)) = some blob) := by
  refine ⟨⟨rfl, rfl⟩, rfl, ?_⟩
  simp [runFsTrace, save_data_trace, applyFsOp]

/-- C4 counterexample: the claim's mechanism — "the file is replaced by
writing a new file and swapping it in, never by truncating the existing file
in place" — is false: on a successful persist the trace opens the vault file
itself with truncation (Python `open(self.data_file, 'w')`), so there is an
intermediate state in which the vault file is empty before the new content is
written. -/
theorem C4_counterexample :
    FsOp.openTruncate ['d'] ∈ save_data_trace ['d'] (some ['x']) ∧
    runFsTrace (some ['o']) [FsOp.openTruncate ['d']] = some [] := by
  exact ⟨by simp [save_data_trace], rfl⟩

/-! ### `generator.py` — `PasswordGenerator`

Randomness is passed in explicitly: `rnd n pool` is the result of the `n`-th
`secrets.choice(pool)` call, and `shuffle` is the `SystemRandom().shuffle`
outcome, assumed only to permute its input. -/

def ascii_lowercase : List Char := "abcdefghijklmnopqrstuvwxyz".toList

def ascii_uppercase : List Char := "ABCDEFGHIJKLMNOPQRSTUVWXYZ".toList

def digitChars : List Char := "0123456789".toList

/-- `self.special = "!@#$%^&*()_+-=[]{}|;:,.<>?"` (generator.py line 12). -/
def specialChars : List Char := "!@#$%^&*()_+-=[]\x7b\x7d|;:,.<>?".toList

/-- Lowercase pool; `exclude_similar` removes `l` and `o`
(`chars.replace('l','').replace('o','')`). -/
def lowerPool (exclude_similar : Bool) : List Char :=
  if exclude_similar then
    (ascii_lowercase.filter (fun c => c != 'l')).filter (fun c => c != 'o')
  else ascii_lowercase

/-- Uppercase pool; `exclude_similar` removes `I` and `O`. -/
def upperPool (exclude_similar : Bool) : List Char :=
  if exclude_similar then
    (ascii_uppercase.filter (fun c => c != 'I')).filter (fun c => c != 'O')
  else ascii_uppercase

/-- Digit pool; `exclude_similar` removes `0` and `1`. -/
def digitPool (exclude_similar : Bool) : List Char :=
  if exclude_similar then
    (digitChars.filter (fun c => c != '0')).filter (fun c => c != '1')
  else digitChars

/-- The per-class pools accumulated by `generate_password` (lines 44–67), in
source order: lowercase, uppercase, digits, special.  `charset` is their
concatenation and `required_chars` one `secrets.choice` from each. -/
def genPools (use_lowercase use_uppercase use_digits use_special
    exclude_similar : Bool) : List (List Char) :=
  (if use_lowercase then [lowerPool exclude_similar] else []) ++
  (if use_uppercase then [upperPool exclude_similar] else []) ++
  (if use_digits then [digitPool exclude_similar] else []) ++
  (if use_special then [specialChars] else [])

/-- `PasswordGenerator.generate_password` (generator.py lines 14–82).
`none` models a raised `ValueError`.  The `n`-th random draw is `rnd n pool`:
draws `0 … k-1` are the required characters of the `k` enabled classes,
draws `k …` fill up to `length` from the full charset; the result is
shuffled. -/
def generate_password (rnd : Nat → List Char → Char)
    (shuffle : List Char → List Char) (length : Nat)
    (use_uppercase use_lowercase use_digits use_special
      exclude_similar : Bool) : Option (List Char) :=
  if length < 4 then none
  else
    let pools := genPools use_lowercase use_uppercase use_digits use_special
      exclude_similar
    let charset := pools.flatten
    let required_chars := pools.enum.map fun ip => rnd ip.1 ip.2
    if charset = [] then none
    else
      let password := required_chars ++
        (List.range (length - required_chars.length)).map
          (fun j => rnd (required_chars.length + j) charset)
      some (shuffle password)

theorem lowerPool_ne_nil (b : Bool) : lowerPool b ≠ [] := by
  cases b <;> decide

theorem upperPool_ne_nil (b : Bool) : upperPool b ≠ [] := by
  cases b <;> decide

theorem digitPool_ne_nil (b : Bool) : digitPool b ≠ [] := by
  cases b <;> decide

theorem specialChars_ne_nil : specialChars ≠ [] := by decide

theorem lowerPool_sub (b : Bool) : ∀ c ∈ lowerPool b, c ∈ ascii_lowercase := by
  cases b
  · intro c hc; simpa [lowerPool] using hc
  · intro c hc
    exact List.mem_of_mem_filter (List.mem_of_mem_filter hc)

theorem upperPool_sub (b : Bool) : ∀ c ∈ upperPool b, c ∈ ascii_uppercase := by
  cases b
  · intro c hc; simpa [upperPool] using hc
  · intro c hc
    exact List.mem_of_mem_filter (List.mem_of_mem_filter hc)

theorem digitPool_sub (b : Bool) : ∀ c ∈ digitPool b, c ∈ digitChars := by
  cases b
  · intro c hc; simpa [digitPool] using hc
  · intro c hc
    exact List.mem_of_mem_filter (List.mem_of_mem_filter hc)

theorem genPools_length_le (a b c d e : Bool) :
    (genPools a b c d e).length ≤ 4 := by
  cases a <;> cases b <;> cases c <;> cases d <;> simp [genPools]

theorem rnd_mem_enumFrom (rnd : Nat → List Char → Char)
    (hrnd : ∀ n l, l ≠ [] → rnd n l ∈ l) :
    ∀ (pools : List (List Char)) (k : Nat) (pool : List Char),
      pool ∈ pools → pool ≠ [] →
      ∃ c ∈ (List.enumFrom k pools).map (fun ip => rnd ip.1 ip.2), c ∈ pool := by
  intro pools
  induction pools with
  | nil => intro k pool h; cases h
  | cons p t ih =>
      intro k pool hp hne
      rcases List.mem_cons.mp hp with rfl | hp
      · exact ⟨rnd k pool, by simp [List.enumFrom], hrnd k pool hne⟩
      · obtain ⟨c, hc, hcp⟩ := ih (k + 1) pool hp hne
        refine ⟨c, ?_, hcp⟩
        simp only [List.enumFrom, List.map_cons, List.mem_cons]
        exact Or.inr hc

/-- C5: with a length of at least 4 and at least one class enabled,
`generate_password` returns exactly `length` characters including at least one
from each enabled class, for every outcome of the random draws and of the
shuffle; it raises `ValueError` when `length < 4` or no class is enabled. -/
theorem C5_generate_password_guarantees
    (rnd : Nat → List Char → Char) (shuffle : List Char → List Char)
    (hrnd : ∀ n l, l ≠ [] → rnd n l ∈ l)
    (hshuf : ∀ l, (shuffle l).Perm l)
    (length : Nat) (uu ul ud us ex : Bool) :
    (4 ≤ length → (ul || uu || ud || us) = true →
      ∃ pw, generate_password rnd shuffle length uu ul ud us ex = some pw ∧
        pw.length = length ∧
        (ul = true → ∃ c ∈ pw, c ∈ ascii_lowercase) ∧
        (uu = true → ∃ c ∈ pw, c ∈ ascii_uppercase) ∧
        (ud = true → ∃ c ∈ pw, c ∈ digitChars) ∧
        (us = true → ∃ c ∈ pw, c ∈ specialChars)) ∧
    ((length < 4 ∨ (ul || uu || ud || us) = false) →
      generate_password rnd shuffle length uu ul ud us ex = none) := by
  constructor
  · intro hlen hflag
    have hnonempty : ∃ p ∈ genPools ul uu ud us ex, p ≠ [] := by
      simp only [Bool.or_eq_true] at hflag
      rcases hflag with ((h | h) | h) | h
      · exact ⟨lowerPool ex, by simp [genPools, h], lowerPool_ne_nil ex⟩
      · exact ⟨upperPool ex, by simp [genPools, h], upperPool_ne_nil ex⟩
      · exact ⟨digitPool ex, by simp [genPools, h], digitPool_ne_nil ex⟩
      · exact ⟨specialChars, by simp [genPools, h], specialChars_ne_nil⟩
    have hjoin : (genPools ul uu ud us ex).flatten ≠ [] := by
      obtain ⟨p, hp, hpne⟩ := hnonempty
      intro hj
      exact hpne ((List.flatten_eq_nil_iff.mp hj) p hp)
    unfold generate_password
    rw [if_neg (by omega), if_neg hjoin]
    set pools := genPools ul uu ud us ex with hpools
    have hple : pools.length ≤ 4 := genPools_length_le ul uu ud us ex
    have hreqlen : (pools.enum.map fun ip => rnd ip.1 ip.2).length
        = pools.length := by simp
    refine ⟨_, rfl, ?_, ?_, ?_, ?_, ?_⟩
    · rw [(hshuf _).length_eq]
      simp only [List.length_append, hreqlen, List.length_map,
        List.length_range]
      omega
    all_goals
      intro hf
    · obtain ⟨c, hc, hcp⟩ := rnd_mem_enumFrom rnd hrnd pools 0
        (lowerPool ex) (by simp [hpools, genPools, hf]) (lowerPool_ne_nil ex)
      refine ⟨c, ?_, lowerPool_sub ex c hcp⟩
      rw [(hshuf _).mem_iff]
      exact List.mem_append_left _ hc
    · obtain ⟨c, hc, hcp⟩ := rnd_mem_enumFrom rnd hrnd pools 0
        (upperPool ex) (by simp [hpools, genPools, hf]) (upperPool_ne_nil ex)
      refine ⟨c, ?_, upperPool_sub ex c hcp⟩
      rw [(hshuf _).mem_iff]
      exact List.mem_append_left _ hc
    · obtain ⟨c, hc, hcp⟩ := rnd_mem_enumFrom rnd hrnd pools 0
        (digitPool ex) (by simp [hpools, genPools, hf]) (digitPool_ne_nil ex)
      refine ⟨c, ?_, digitPool_sub ex c hcp⟩
      rw [(hshuf _).mem_iff]
      exact List.mem_append_left _ hc
    · obtain ⟨c, hc, hcp⟩ := rnd_mem_enumFrom rnd hrnd pools 0
        specialChars (by simp [hpools, genPools, hf]) specialChars_ne_nil
      refine ⟨c, ?_, hcp⟩
      rw [(hshuf _).mem_iff]
      exact List.mem_append_left _ hc
  · intro h
    rcases h with h | h
    · unfold generate_password
      rw [if_pos h]
    · have hall : ul = false ∧ uu = false ∧ ud = false ∧ us = false := by
        revert h
        cases ul <;> cases uu <;> cases ud <;> cases us <;> simp
      obtain ⟨h1, h2, h3, h4⟩ := hall
      subst h1; subst h2; subst h3; subst h4
      unfold generate_password
      split
      · rfl
      · rw [if_pos (by simp [genPools])]

/-- Witness evaluating `C5_generate_password_guarantees` at length 4 with all
classes enabled, `secrets.choice` resolved to the head of the pool and the
shuffle to the identity permutation. -/
theorem C5_generate_password_guarantees_witness :
    ∃ pw, generate_password (fun _ l => l.headD 'a') id 4 true true true true
        true = some pw ∧
      pw.length = 4 ∧
      (true = true → ∃ c ∈ pw, c ∈ ascii_lowercase) ∧
      (true = true → ∃ c ∈ pw, c ∈ ascii_uppercase) ∧
      (true = true → ∃ c ∈ pw, c ∈ digitChars) ∧
      (true = true → ∃ c ∈ pw, c ∈ specialChars) :=
  (C5_generate_password_guarantees (fun _ l => l.headD 'a') id
    (fun n l h => by
      cases l with
      | nil => exact absurd rfl h
      | cons a t => exact List.mem_cons_self a t)
    (fun l => List.Perm.refl l) 4 true true true true true).1
    (by omega) rfl

/-- Count of 3-character windows of strictly consecutive code points
(generator.py lines 139–143: `ord(p[i])+1 == ord(p[i+1])` and
`ord(p[i+1])+1 == ord(p[i+2])` for `i` in `0 … len-3`). -/
def countSeq : List Char → Nat
  | a :: b :: c :: rest =>
      (if a.toNat + 1 = b.toNat ∧ b.toNat + 1 = c.toNat then 1 else 0)
        + countSeq (b :: c :: rest)
  | _ => 0

/-- `char_types = sum([has_lower, has_upper, has_digit, has_special])`
(generator.py line 121), where membership models Python's `c in self.X`. -/
def charTypes (password : List Char) : Int :=
  (if password.any (fun c => ascii_lowercase.contains c) then 1 else 0)
    + (if password.any (fun c => ascii_uppercase.contains c) then 1 else 0)
    + (if password.any (fun c => digitChars.contains c) then 1 else 0)
    + (if password.any (fun c => specialChars.contains c) then 1 else 0)

/-- The `score` variable of `check_password_strength` just before clamping
(generator.py lines 101–146).  The repeated-characters test models Python's
`len(set(password)) < len(password) * 0.7`; the exact comparison
`10·distinct < 7·length` agrees with the float computation for every length
below 2^45 (the accumulated error of `len * 0.7` stays under the distance to
the nearest integer). -/
def rawScore (password : List Char) : Int :=
  let length := password.length
  let s1 : Int :=
    if 12 ≤ length then 25
    else if 8 ≤ length then 15
    else if 6 ≤ length then 10
    else 0
  let s2 := s1 + charTypes password * 15
  let s3 := if password.dedup.length * 10 < length * 7 then s2 - 10 else s2
  if 0 < countSeq password then s3 - 5 * (countSeq password : Int) else s3

structure StrengthResult where
  score : Int
  level : List Char
  feedback : List (List Char)
deriving DecidableEq

/-- `PasswordGenerator.check_password_strength` (generator.py lines 84–165):
the empty password short-circuits; otherwise the returned score is the raw
score clamped to `[0, 100]` (`max(0, min(100, score))`), the level is chosen
from the un-clamped score, and the feedback lists the detected weaknesses in
source order. -/
def check_password_strength (password : List Char) : StrengthResult :=
  if password = [] then
    { score := 0, level := "Bardzo słabe".toList,
      feedback := ["Hasło nie może być puste".toList] }
  else
    { score := max 0 (min 100 (rawScore password))
      level :=
        if 80 ≤ rawScore password then "Bardzo silne".toList
        else if 60 ≤ rawScore password then "Silne".toList
        else if 40 ≤ rawScore password then "Średnie".toList
        else if 20 ≤ rawScore password then "Słabe".toList
        else "Bardzo słabe".toList
      feedback :=
        (if 6 ≤ password.length then []
         else ["Hasło powinno mieć co najmniej 8 znaków".toList]) ++
        (if password.any (fun c => ascii_lowercase.contains c) then []
         else ["Dodaj małe litery".toList]) ++
        (if password.any (fun c => ascii_uppercase.contains c) then []
         else ["Dodaj wielkie litery".toList]) ++
        (if password.any (fun c => digitChars.contains c) then []
         else ["Dodaj cyfry".toList]) ++
        (if password.any (fun c => specialChars.contains c) then []
         else ["Dodaj znaki specjalne".toList]) ++
        (if password.dedup.length * 10 < password.length * 7 then
          ["Unikaj powtarzających się znaków".toList] else []) ++
        (if 0 < countSeq password then
          ["Unikaj kolejnych znaków (abc, 123)".toList] else []) }

/-- The additive rubric exactly as the claim states it: length points, plus
15 per present character class, minus 10 for a distinct-character ratio below
0.7, minus 5 per consecutive 3-character run. -/
def rubricScore (password : List Char) : Int :=
  (if 12 ≤ password.length then 25
   else if 8 ≤ password.length then 15
   else if 6 ≤ password.length then 10
   else 0)
  + 15 * charTypes password
  - (if password.dedup.length * 10 < password.length * 7 then 10 else 0)
  - 5 * (countSeq password : Int)

/-- The claim's level thresholds (source strings: `Bardzo silne` =
VeryStrong, `Silne` = Strong, `Średnie` = Medium, `Słabe` = Weak,
`Bardzo słabe` = VeryWeak). -/
def levelOf (score : Int) : List Char :=
  if 80 ≤ score then "Bardzo silne".toList
  else if 60 ≤ score then "Silne".toList
  else if 40 ≤ score then "Średnie".toList
  else if 20 ≤ score then "Słabe".toList
  else "Bardzo słabe".toList

theorem rawScore_eq_rubric (password : List Char) :
    rawScore password = rubricScore password := by
  unfold rawScore rubricScore
  by_cases hd : password.dedup.length * 10 < password.length * 7 <;>
    by_cases hs : 0 < countSeq password <;>
      simp only [hd, hs, if_true, if_false, ite_true, ite_false] <;>
      [ring;
       (have h0 : countSeq password = 0 := by omega
        simp [h0]; ring);
       ring;
       (have h0 : countSeq password = 0 := by omega
        simp [h0]; ring)]

theorem levelOf_clamp (x : Int) : levelOf (max 0 (min 100 x)) = levelOf x := by
  unfold levelOf
  split_ifs <;> first | rfl | omega

/-- C7: for every password, `check_password_strength` returns the additive
rubric score clamped to `[0, 100]`, with the level given by the thresholds
`≥80 / ≥60 / ≥40 / ≥20` applied to that score (the source applies them to the
un-clamped score, which never exceeds 85 and agrees with the clamped reading
on every band, including the early return for the empty password). -/
theorem C7_strength_score_rubric (password : List Char) :
    (check_password_strength password).score
      = max 0 (min 100 (rubricScore password)) ∧
    (check_password_strength password).level
      = levelOf (max 0 (min 100 (rubricScore password))) := by
  by_cases hp : password = []
  · subst hp
    exact ⟨rfl, rfl⟩
  · unfold check_password_strength
    rw [if_neg hp, rawScore_eq_rubric]
    refine ⟨rfl, ?_⟩
    show levelOf (rubricScore password)
      = levelOf (max 0 (min 100 (rubricScore password)))
    exact (levelOf_clamp _).symm

end PwVault
